import Mathlib

/-!
# Verification of the batched account fetcher (`ts/src/utils/rpc.ts`)

A shallow embedding of the module's batched multi-account fetch:
`getMultipleAccounts` splits the key list into chunks of at most 99 keys,
issues one `getMultipleAccounts` RPC per chunk, decodes each raw entry of a
response, and pairs decoded accounts positionally with the requested keys.

Modelling decisions:
* The remote transport (`connection._rpcRequest`) is an oracle function
  `Connection.rpcRequest : String → List RpcArg → RpcResponse`.
* Promises are sequentialised: `Promise.all` over chunk calls becomes a
  left-to-right fail-fast `mapM` over the `Except String` monad; hypotheses
  that earlier chunks succeed make the modelled error agree with the one the
  code surfaces.
* JS truthiness: `if (res.error)` / `if (commitment)` test presence, so those
  fields are `Option`s (TS `Commitment` is a union of non-empty string
  literals, hence always truthy when present); `if (res.result.value)` tests
  an array object, which is always truthy in JS — kept as `jsArrayTruthy`.
* JS `publicKeys[idx]` yields `undefined` past the end; the embedded slot's
  `publicKey` field is an `Option PublicKey` and out-of-range indexing is
  `List.getElem?`.
* `Buffer.from(s, "base64")` and `assert` are modelled by an executable
  base64 codec and by `Except.error` with a distinguishing message.
-/

namespace AnchorRpc

/-! ## Base64 codec (model of `Buffer` base64 encode/decode) -/

/-- The character standing for one six-bit group of the base64 alphabet. -/
def sextetToChar (n : Nat) : Char :=
  if n < 26 then Char.ofNat (65 + n)
  else if n < 52 then Char.ofNat (97 + (n - 26))
  else if n < 62 then Char.ofNat (48 + (n - 52))
  else if n = 62 then '+'
  else '/'

/-- Partial inverse of `sextetToChar`. -/
def charToSextet (c : Char) : Option Nat :=
  if 65 ≤ c.toNat ∧ c.toNat ≤ 90 then some (c.toNat - 65)
  else if 97 ≤ c.toNat ∧ c.toNat ≤ 122 then some (c.toNat - 97 + 26)
  else if 48 ≤ c.toNat ∧ c.toNat ≤ 57 then some (c.toNat - 48 + 52)
  else if c = '+' then some 62
  else if c = '/' then some 63
  else none

/-- Six-bit value of a base64 character, zero for anything else. -/
def sextetVal (c : Char) : Nat := (charToSextet c).getD 0

/-- Standard base64 encoding of a byte list (bytes are `Nat`s below 256),
three bytes to four characters, `'='`-padded. -/
def base64EncodeBytes : List Nat → List Char
  | [] => []
  | [a] => [sextetToChar (a / 4), sextetToChar (a % 4 * 16), '=', '=']
  | [a, b] => [sextetToChar (a / 4), sextetToChar (a % 4 * 16 + b / 16),
      sextetToChar (b % 16 * 4), '=']
  | a :: b :: c :: rest =>
      sextetToChar (a / 4) :: sextetToChar (a % 4 * 16 + b / 16) ::
      sextetToChar (b % 16 * 4 + c / 64) :: sextetToChar (c % 64) ::
      base64EncodeBytes rest

/-- Base64 decoding of a character list, four characters to three bytes,
stopping at padding; trailing garbage shorter than one quartet is dropped,
as the JS `Buffer` decoder is total and never throws. -/
def base64DecodeChars : List Char → List Nat
  | w :: x :: y :: z :: rest =>
      if z = '=' then
        if y = '=' then [sextetVal w * 4 + sextetVal x / 16]
        else [sextetVal w * 4 + sextetVal x / 16,
          sextetVal x % 16 * 16 + sextetVal y / 4]
      else
        (sextetVal w * 4 + sextetVal x / 16) ::
        (sextetVal x % 16 * 16 + sextetVal y / 4) ::
        (sextetVal y % 4 * 64 + sextetVal z) ::
        base64DecodeChars rest
  | _ => []

/-- Base64 encoding producing a string, as `data[0]` carries on the wire. -/
def base64Encode (bs : List Nat) : String := ⟨base64EncodeBytes bs⟩

/-- Model of `Buffer.from(s, "base64")`. -/
def base64Decode (s : String) : List Nat := base64DecodeChars s.data

/-! ## Data model -/

/-- A 32-byte account key; only its base-58 string representation matters to
this module, so the embedding carries exactly that. -/
structure PublicKey where
  base58 : String
deriving DecidableEq, Repr

/-- `k.toBase58()`. -/
def PublicKey.toBase58 (k : PublicKey) : String := k.base58

/-- TS `Commitment` is a union of string literals. -/
abbrev Commitment := String

/-- Decoded account record (`AccountInfo<Buffer>` as this module builds it). -/
structure AccountInfo where
  executable : Bool
  owner : PublicKey
  lamports : Nat
  data : List Nat
deriving DecidableEq, Repr

/-- A non-null raw per-account wire entry; `data` is the two-element array
`[encoded payload, encoding tag]` the code reads as `data[0]`, `data[1]`. -/
structure RawAccount where
  executable : Bool
  owner : String
  lamports : Nat
  data : String × String
deriving DecidableEq, Repr

/-- Structured remote error object. -/
structure RpcError where
  message : String
deriving DecidableEq, Repr

/-- The `result` payload: `res.result.value` is the per-account entry array. -/
structure RpcResult where
  value : List (Option RawAccount)
deriving DecidableEq, Repr

/-- Response envelope of `connection._rpcRequest`. -/
structure RpcResponse where
  error : Option RpcError := none
  result : Option RpcResult := none
deriving DecidableEq, Repr

/-- One positional wire parameter: the base-58 key array, or the trailing
configuration object holding `commitment`. -/
inductive RpcArg where
  | keys (ks : List String)
  | config (commitment : Commitment)
deriving DecidableEq, Repr

/-- The transport: a configured default commitment and the raw RPC oracle. -/
structure Connection where
  commitment : Option Commitment
  rpcRequest : String → List RpcArg → RpcResponse

/-- One returned slot: the requested key paired with its decoded account
(`publicKey` is an `Option` because JS out-of-range indexing yields
`undefined`). -/
structure ProgramAccount where
  publicKey : Option PublicKey
  account : AccountInfo
deriving DecidableEq, Repr

/-! ## The embedded code -/

/-- `const GET_MULTIPLE_ACCOUNTS_LIMIT: number = 99`. -/
def GET_MULTIPLE_ACCOUNTS_LIMIT : Nat := 99

/-- Modelled from the spec: `chunks` is imported from `../utils/common.js`,
which is not among the given sources; the spec treats it as a given pure
utility with contract "split sequence into groups of at most N, preserving
order", empty input yielding no chunks. -/
def chunks (xs : List α) (size : Nat) : List (List α) :=
  if h : size = 0 ∨ xs.isEmpty then []
  else xs.take size :: chunks (xs.drop size) size
termination_by xs.length
decreasing_by
  simp only [not_or, List.isEmpty_iff] at h
  have h1 : 0 < xs.length := List.length_pos.mpr h.2
  have h2 : size ≠ 0 := h.1
  simp only [List.length_drop]
  omega

/-- Message of the `assert(data[1] === "base64")` failure. -/
def base64AssertionMessage : String := "AssertionError: data[1] === base64"

/-- Message of the `assert(typeof res.result !== "undefined")` failure. -/
def resultAssertionMessage : String :=
  "AssertionError: typeof res.result !== undefined"

/-- JS truthiness of `res.result.value` inside the loop: the loop is already
iterating this array, and every array object is truthy in JS. -/
def jsArrayTruthy (_value : List (Option RawAccount)) : Bool := true

/-- Loop body of `getMultipleAccountsCore` for one entry of
`res.result.value`: push `null` for a null entry, otherwise assert the
base64 tag and build the account record; the trailing `value === null`
check throws `Error("Invalid response")`. -/
def decodeEntry (resValue : List (Option RawAccount)) (account : Option RawAccount) :
    Except String (Option AccountInfo) :=
  match account with
  | none => Except.ok none
  | some acc =>
      (if jsArrayTruthy resValue then
        if acc.data.2 = "base64" then
          Except.ok (some
            { executable := acc.executable
              owner := PublicKey.mk acc.owner
              lamports := acc.lamports
              data := base64Decode acc.data.1 })
        else Except.error base64AssertionMessage
      else Except.ok none).bind fun value =>
        if value = none then Except.error "Invalid response"
        else Except.ok value

/-- Final map of `getMultipleAccountsCore`: pair slot `idx` with
`publicKeys[idx]`. -/
def pairResults (publicKeys : List PublicKey)
    (accounts : List (Option AccountInfo)) : List (Option ProgramAccount) :=
  accounts.mapIdx fun idx account =>
    match account with
    | none => none
    | some acc => some { publicKey := publicKeys[idx]?, account := acc }

/-- The positional params built at the top of `getMultipleAccountsCore`:
`args = [publicKeys.map(toBase58)]`, then `args.push(«commitment object»)`
when the resolved commitment (`commitmentOverride ?? connection.commitment`)
is set. -/
def coreArgs (connection : Connection) (publicKeys : List PublicKey)
    (commitmentOverride : Option Commitment) : List RpcArg :=
  let commitment := commitmentOverride.orElse fun _ => connection.commitment
  let args := [RpcArg.keys (publicKeys.map PublicKey.toBase58)]
  match commitment with
  | some c => args ++ [RpcArg.config c]
  | none => args

/-- The one wire response a core call sees:
`res = await connection._rpcRequest("getMultipleAccounts", args)`. -/
def coreResponse (connection : Connection) (publicKeys : List PublicKey)
    (commitmentOverride : Option Commitment) : RpcResponse :=
  connection.rpcRequest "getMultipleAccounts"
    (coreArgs connection publicKeys commitmentOverride)

/-- The message of the error thrown when the remote reports `res.error`. -/
def coreErrorMessage (publicKeys : List PublicKey) (e : RpcError) : String :=
  "failed to get info about accounts " ++
    String.intercalate ", " (publicKeys.map PublicKey.toBase58) ++
    ": " ++ e.message

/-- `getMultipleAccountsCore`: one `_rpcRequest("getMultipleAccounts", args)`,
the remote-error throw, the result-presence assert, the decode loop, and the
final positional pairing. -/
def getMultipleAccountsCore (connection : Connection)
    (publicKeys : List PublicKey) (commitmentOverride : Option Commitment) :
    Except String (List (Option ProgramAccount)) :=
  let res := coreResponse connection publicKeys commitmentOverride
  match res.error with
  | some e => Except.error (coreErrorMessage publicKeys e)
  | none =>
      match res.result with
      | none => Except.error resultAssertionMessage
      | some result =>
          Except.map (pairResults publicKeys)
            (result.value.mapM (decodeEntry result.value))

/-- `getMultipleAccounts`: the unchunked fast path for at most 99 keys,
otherwise one core call per chunk joined fail-fast and flattened. -/
def getMultipleAccounts (connection : Connection) (publicKeys : List PublicKey)
    (commitment : Option Commitment) :
    Except String (List (Option ProgramAccount)) :=
  if publicKeys.length ≤ GET_MULTIPLE_ACCOUNTS_LIMIT then
    getMultipleAccountsCore connection publicKeys commitment
  else
    let batches := chunks publicKeys GET_MULTIPLE_ACCOUNTS_LIMIT
    Except.map List.flatten
      (batches.mapM fun batch =>
        getMultipleAccountsCore connection batch commitment)

/-- The per-call batches: the fast path sends the whole list in one call,
the chunked path one call per chunk. -/
def fetchBatches (publicKeys : List PublicKey) : List (List PublicKey) :=
  if publicKeys.length ≤ GET_MULTIPLE_ACCOUNTS_LIMIT then [publicKeys]
  else chunks publicKeys GET_MULTIPLE_ACCOUNTS_LIMIT

/-- The wire requests one fetch issues: each core call performs exactly one
`_rpcRequest` whose method is `"getMultipleAccounts"` and whose params are
`coreArgs` of its batch. -/
def fetchRequests (connection : Connection) (publicKeys : List PublicKey)
    (commitment : Option Commitment) : List (String × List RpcArg) :=
  (fetchBatches publicKeys).map fun batch =>
    ("getMultipleAccounts", coreArgs connection batch commitment)

/-- The raw entries the remote returned for one fetch, flattened across
batches in batch order (empty where an envelope carried no result). -/
def fetchRawValues (connection : Connection) (publicKeys : List PublicKey)
    (commitment : Option Commitment) : List (Option RawAccount) :=
  ((fetchBatches publicKeys).map fun batch =>
    match (coreResponse connection batch commitment).result with
    | some r => r.value
    | none => []).flatten

/-! ## Concrete fixtures for witnesses and counterexamples -/

/-- A demo key. -/
def kDemoA : PublicKey := ⟨"KA"⟩

/-- A second demo key. -/
def kDemoB : PublicKey := ⟨"KB"⟩

/-- A valid non-null raw entry: base64 payload `"aGk="` (the bytes 104, 105). -/
def demoRaw : RawAccount := ⟨true, "ownerKey", 7, ("aGk=", "base64")⟩

/-- The decoded form of `demoRaw`. -/
def demoAccount : AccountInfo := ⟨true, ⟨"ownerKey"⟩, 7, [104, 105]⟩

/-- A transport whose oracle never gets consulted by the request-shape
facts; no default commitment. -/
def demoConn : Connection :=
  ⟨none, fun _ _ => {}⟩

/-- A transport answering every call with a well-formed two-entry value:
`demoRaw` then a null entry. -/
def demoOkConn : Connection :=
  ⟨none, fun _ _ => { result := some ⟨[some demoRaw, none]⟩ }⟩

/-- The fetch result `demoOkConn` produces for `[kDemoA, kDemoB]`. -/
def demoOut : List (Option ProgramAccount) := [some ⟨some kDemoA, demoAccount⟩, none]

/-- A transport whose every response is the structured error `"boom"`. -/
def errConn : Connection :=
  ⟨none, fun _ _ => { error := some ⟨"boom"⟩ }⟩

/-- A transport answering every call with a single-entry value, regardless
of how many keys were requested. -/
def shortConn : Connection :=
  ⟨none, fun _ _ => { result := some ⟨[none]⟩ }⟩

/-- 150 identical demo keys, for the two-chunk dispatch example. -/
def pks150 : List PublicKey := List.replicate 150 ⟨"K"⟩

deriving instance DecidableEq for Except

/-! ## Base64 lemmas -/

theorem charToSextet_sextetToChar : ∀ n, n < 64 → charToSextet (sextetToChar n) = some n := by
  decide

theorem sextetVal_sextetToChar {n : Nat} (h : n < 64) : sextetVal (sextetToChar n) = n := by
  rw [sextetVal, charToSextet_sextetToChar n h]
  rfl

theorem sextetToChar_ne_pad : ∀ n, n < 64 → sextetToChar n ≠ '=' := by
  decide

theorem base64DecodeChars_encodeBytes :
    ∀ (bs : List Nat), (∀ x ∈ bs, x < 256) →
      base64DecodeChars (base64EncodeBytes bs) = bs
  | [], _ => rfl
  | [a], h => by
      have ha : a < 256 := h a (by simp)
      have e1 := sextetVal_sextetToChar (n := a / 4) (by omega)
      have e2 := sextetVal_sextetToChar (n := a % 4 * 16) (by omega)
      simp [base64EncodeBytes, base64DecodeChars, e1, e2]
      omega
  | [a, b], h => by
      have ha : a < 256 := h a (by simp)
      have hb : b < 256 := h b (by simp)
      have e1 := sextetVal_sextetToChar (n := a / 4) (by omega)
      have e2 := sextetVal_sextetToChar (n := a % 4 * 16 + b / 16) (by omega)
      have e3 := sextetVal_sextetToChar (n := b % 16 * 4) (by omega)
      have ne3 := sextetToChar_ne_pad (b % 16 * 4) (by omega)
      simp [base64EncodeBytes, base64DecodeChars, ne3, e1, e2, e3]
      omega
  | a :: b :: c :: rest, h => by
      have ha : a < 256 := h a (by simp)
      have hb : b < 256 := h b (by simp)
      have hc : c < 256 := h c (by simp)
      have ih := base64DecodeChars_encodeBytes rest fun x hx => h x (by simp [hx])
      have e1 := sextetVal_sextetToChar (n := a / 4) (by omega)
      have e2 := sextetVal_sextetToChar (n := a % 4 * 16 + b / 16) (by omega)
      have e3 := sextetVal_sextetToChar (n := b % 16 * 4 + c / 64) (by omega)
      have e4 := sextetVal_sextetToChar (n := c % 64) (by omega)
      have ne4 := sextetToChar_ne_pad (c % 64) (by omega)
      simp [base64EncodeBytes, base64DecodeChars, ne4, e1, e2, e3, e4, ih]
      omega

theorem base64_roundtrip (bs : List Nat) (h : ∀ x ∈ bs, x < 256) :
    base64Decode (base64Encode bs) = bs :=
  base64DecodeChars_encodeBytes bs h

/-! ## Chunk lemmas -/

theorem chunks_nil (s : Nat) : chunks ([] : List α) s = [] := by
  rw [chunks]
  simp

theorem chunks_cons {xs : List α} {s : Nat} (hx : xs ≠ []) (hs : s ≠ 0) :
    chunks xs s = xs.take s :: chunks (xs.drop s) s := by
  rw [chunks]
  rw [dif_neg]
  simp [not_or, List.isEmpty_iff, hx, hs]

theorem flatten_chunks {s : Nat} (hs : s ≠ 0) (xs : List α) :
    (chunks xs s).flatten = xs := by
  by_cases hx : xs = []
  · subst hx
    simp [chunks_nil]
  · rw [chunks_cons hx hs, List.flatten_cons, flatten_chunks hs (xs.drop s)]
    exact List.take_append_drop s xs
termination_by xs.length
decreasing_by
  have h1 : 0 < xs.length := List.length_pos.mpr hx
  simp only [List.length_drop]
  omega

theorem length_le_of_mem_chunks {s : Nat} {xs : List α} (b : List α)
    (hb : b ∈ chunks xs s) : b.length ≤ s := by
  by_cases hs : s = 0
  · rw [chunks, dif_pos (Or.inl hs)] at hb
    simp at hb
  by_cases hx : xs = []
  · subst hx
    rw [chunks_nil] at hb
    simp at hb
  rw [chunks_cons hx hs] at hb
  rcases List.mem_cons.mp hb with h | h
  · subst h
    simp [List.length_take]
  · exact length_le_of_mem_chunks b h
termination_by xs.length
decreasing_by
  have h1 : 0 < xs.length := List.length_pos.mpr hx
  simp only [List.length_drop]
  omega

theorem chunks_length_99 (xs : List α) :
    (chunks xs 99).length = (xs.length + 98) / 99 := by
  by_cases hx : xs = []
  · subst hx
    simp [chunks_nil]
  · rw [chunks_cons hx (by omega), List.length_cons, chunks_length_99 (xs.drop 99)]
    have h1 : 0 < xs.length := List.length_pos.mpr hx
    simp only [List.length_drop]
    omega
termination_by xs.length
decreasing_by
  have h1 : 0 < xs.length := List.length_pos.mpr hx
  simp only [List.length_drop]
  omega

/-! ## `mapM` over `Except` -/

theorem exceptMapM_ok_forall₂ {ε α β : Type} (f : α → Except ε β) :
    ∀ (l : List α) (ys : List β), l.mapM f = Except.ok ys →
      List.Forall₂ (fun x y => f x = Except.ok y) l ys := by
  intro l
  induction l with
  | nil =>
      intro ys h
      rw [List.mapM_nil] at h
      cases h
      exact List.Forall₂.nil
  | cons a l ih =>
      intro ys h
      rw [List.mapM_cons] at h
      cases hfa : f a with
      | error e =>
          rw [hfa] at h
          exact absurd h (by simp [Bind.bind, Except.bind])
      | ok b =>
          rw [hfa] at h
          cases hl : l.mapM f with
          | error e =>
              rw [hl] at h
              exact absurd h (by simp [Bind.bind, Except.bind, Pure.pure, Except.pure])
          | ok bs =>
              rw [hl] at h
              have : ys = b :: bs := by
                simpa [Bind.bind, Except.bind, Pure.pure, Except.pure] using h.symm
              subst this
              exact List.Forall₂.cons hfa (ih bs hl)

theorem exceptMapM_of_forall₂ {ε α β : Type} (f : α → Except ε β)
    {l : List α} {ys : List β}
    (h : List.Forall₂ (fun x y => f x = Except.ok y) l ys) :
    l.mapM f = Except.ok ys := by
  induction h with
  | nil => rw [List.mapM_nil]; rfl
  | cons hab _ ih =>
      rw [List.mapM_cons, hab, ih]
      rfl

theorem exceptMapM_error {ε α β : Type} (f : α → Except ε β) :
    ∀ (l : List α) (j : Nat) (x : α) (e : ε), l[j]? = some x →
      f x = Except.error e →
      (∀ i y, i < j → l[i]? = some y → ∃ z, f y = Except.ok z) →
      l.mapM f = Except.error e := by
  intro l
  induction l with
  | nil =>
      intro j x e hj
      simp at hj
  | cons a l ih =>
      intro j x e hj hx hpre
      match j with
      | 0 =>
          simp at hj
          subst hj
          rw [List.mapM_cons, hx]
          rfl
      | j + 1 =>
          obtain ⟨z, hz⟩ := hpre 0 a (Nat.succ_pos j) (by simp)
          rw [List.mapM_cons, hz,
            ih j x e (by simpa using hj) hx
              (fun i y hi hy => hpre (i + 1) y (by omega) (by simpa using hy))]
          rfl

/-! ## Pointwise facts through flattening -/

theorem length_eq_of_none_iff {α β : Type} {l : List α} {l' : List β}
    (h : ∀ i : Nat, l[i]? = none ↔ l'[i]? = none) : l.length = l'.length := by
  have e1 : l[l.length]? = none := by simp
  have e2 : l'[l'.length]? = none := by simp
  have g1 : l'[l.length]? = none := (h _).mp e1
  have g2 : l[l'.length]? = none := (h _).mpr e2
  rw [List.getElem?_eq_none_iff] at g1 g2
  omega

theorem flatten_rel {α β : Type} (rel : Option α → Option β → Prop)
    (hnone : rel none none) :
    ∀ {as : List (List α)} {bs : List (List β)},
      List.Forall₂ (fun (a : List α) (b : List β) =>
        a.length = b.length ∧ ∀ k : Nat, rel a[k]? b[k]?) as bs →
      ∀ i : Nat, rel as.flatten[i]? bs.flatten[i]? := by
  intro as bs h
  induction h with
  | nil =>
      intro i
      simpa using hnone
  | @cons a b as' bs' hab _ ih =>
      intro i
      obtain ⟨hlen, hk⟩ := hab
      rw [List.flatten_cons, List.flatten_cons]
      by_cases hi : i < a.length
      · rw [List.getElem?_append_left hi, List.getElem?_append_left (hlen ▸ hi)]
        exact hk i
      · rw [List.getElem?_append_right (Nat.le_of_not_lt hi),
          List.getElem?_append_right (hlen ▸ Nat.le_of_not_lt hi), hlen]
        exact ih _

/-! ## Decode and pairing lemmas -/

theorem decodeEntry_none (rv : List (Option RawAccount)) :
    decodeEntry rv none = Except.ok none := rfl

theorem decodeEntry_some_ok {acc : RawAccount} (rv : List (Option RawAccount))
    (htag : acc.data.2 = "base64") :
    decodeEntry rv (some acc) = Except.ok (some
      { executable := acc.executable, owner := PublicKey.mk acc.owner,
        lamports := acc.lamports, data := base64Decode acc.data.1 }) := by
  simp [decodeEntry, jsArrayTruthy, htag, Except.bind]

theorem decodeEntry_some_err {acc : RawAccount} (rv : List (Option RawAccount))
    (htag : ¬ acc.data.2 = "base64") :
    decodeEntry rv (some acc) = Except.error base64AssertionMessage := by
  simp [decodeEntry, jsArrayTruthy, htag, Except.bind]

theorem decodeEntry_ok_shape {rv : List (Option RawAccount)}
    {entry : Option RawAccount} {v : Option AccountInfo}
    (h : decodeEntry rv entry = Except.ok v) :
    (entry = none ∧ v = none) ∨
    ∃ acc, entry = some acc ∧ acc.data.2 = "base64" ∧ v = some
      { executable := acc.executable, owner := PublicKey.mk acc.owner,
        lamports := acc.lamports, data := base64Decode acc.data.1 } := by
  cases entry with
  | none =>
      rw [decodeEntry_none] at h
      cases h
      exact Or.inl ⟨rfl, rfl⟩
  | some acc =>
      by_cases htag : acc.data.2 = "base64"
      · rw [decodeEntry_some_ok rv htag] at h
        cases h
        exact Or.inr ⟨acc, rfl, htag, rfl⟩
      · rw [decodeEntry_some_err rv htag] at h
        exact Except.noConfusion h

theorem length_pairResults (ks : List PublicKey) (accs : List (Option AccountInfo)) :
    (pairResults ks accs).length = accs.length := by
  simp [pairResults]

theorem getElem?_pairResults (ks : List PublicKey) (accs : List (Option AccountInfo))
    (i : Nat) :
    (pairResults ks accs)[i]? = accs[i]?.map fun account =>
      match account with
      | none => none
      | some acc => some { publicKey := ks[i]?, account := acc } := by
  simp [pairResults, List.getElem?_mapIdx]

/-! ## Core-call lemmas -/

theorem core_error {conn : Connection} {pks : List PublicKey}
    {ov : Option Commitment} {e : RpcError}
    (he : (coreResponse conn pks ov).error = some e) :
    getMultipleAccountsCore conn pks ov = Except.error (coreErrorMessage pks e) := by
  simp [getMultipleAccountsCore, he]

theorem core_ok_of {conn : Connection} {pks : List PublicKey}
    {ov : Option Commitment} {r : RpcResult} {accs : List (Option AccountInfo)}
    (he : (coreResponse conn pks ov).error = none)
    (hr : (coreResponse conn pks ov).result = some r)
    (hm : r.value.mapM (decodeEntry r.value) = Except.ok accs) :
    getMultipleAccountsCore conn pks ov = Except.ok (pairResults pks accs) := by
  simp only [getMultipleAccountsCore, he, hr]
  rw [hm]
  rfl

theorem core_ok_inv {conn : Connection} {pks : List PublicKey}
    {ov : Option Commitment} {out : List (Option ProgramAccount)}
    (h : getMultipleAccountsCore conn pks ov = Except.ok out) :
    (coreResponse conn pks ov).error = none ∧
    ∃ r accs, (coreResponse conn pks ov).result = some r ∧
      r.value.mapM (decodeEntry r.value) = Except.ok accs ∧
      out = pairResults pks accs := by
  simp only [getMultipleAccountsCore] at h
  split at h
  · exact Except.noConfusion h
  · rename_i he2
    split at h
    · exact Except.noConfusion h
    · rename_i r hr2
      cases hm2 : r.value.mapM (decodeEntry r.value) with
      | error e =>
          rw [hm2] at h
          simp [Except.map] at h
      | ok accs =>
          rw [hm2] at h
          simp only [Except.map] at h
          cases h
          exact ⟨he2, r, accs, hr2, hm2, rfl⟩

/-! ## Structure of the batched fetch -/

theorem getMultipleAccounts_link (conn : Connection) (pks : List PublicKey)
    (ov : Option Commitment) :
    getMultipleAccounts conn pks ov =
      Except.map List.flatten ((fetchBatches pks).mapM fun b =>
        getMultipleAccountsCore conn b ov) := by
  by_cases h : pks.length ≤ GET_MULTIPLE_ACCOUNTS_LIMIT
  · simp only [getMultipleAccounts, fetchBatches, if_pos h]
    rw [show ([pks] : List (List PublicKey)) = pks :: [] from rfl,
      List.mapM_cons, List.mapM_nil]
    cases hc : getMultipleAccountsCore conn pks ov with
    | error e => simp [hc, Bind.bind, Except.bind, Except.map]
    | ok out => simp [hc, Bind.bind, Except.bind, Except.map, Pure.pure, Except.pure]
  · simp only [getMultipleAccounts, fetchBatches, if_neg h]

theorem fetchBatches_flatten (pks : List PublicKey) :
    (fetchBatches pks).flatten = pks := by
  unfold fetchBatches
  by_cases h : pks.length ≤ GET_MULTIPLE_ACCOUNTS_LIMIT
  · simp [h]
  · rw [if_neg h]
    exact flatten_chunks (by simp [GET_MULTIPLE_ACCOUNTS_LIMIT]) pks

theorem fetchBatches_size {pks : List PublicKey} (b : List PublicKey)
    (hb : b ∈ fetchBatches pks) : b.length ≤ GET_MULTIPLE_ACCOUNTS_LIMIT := by
  unfold fetchBatches at hb
  by_cases h : pks.length ≤ GET_MULTIPLE_ACCOUNTS_LIMIT
  · rw [if_pos h] at hb
    simp at hb
    exact hb ▸ h
  · rw [if_neg h] at hb
    exact length_le_of_mem_chunks b hb

/-! ## More `Forall₂` utilities -/

theorem exceptMapM_ok_of_all {ε α β : Type} (f : α → Except ε β) :
    ∀ (l : List α), (∀ x ∈ l, ∃ y, f x = Except.ok y) →
      ∃ ys, l.mapM f = Except.ok ys := by
  intro l
  induction l with
  | nil => exact fun _ => ⟨[], by rw [List.mapM_nil]; rfl⟩
  | cons a l ih =>
      intro h
      obtain ⟨y, hy⟩ := h a (by simp)
      obtain ⟨ys, hys⟩ := ih fun x hx => h x (by simp [hx])
      exact ⟨y :: ys, by rw [List.mapM_cons, hy, hys]; rfl⟩

theorem forall₂_exists_of_mem {α β : Type} {R : α → β → Prop} :
    ∀ {l : List α} {ys : List β}, List.Forall₂ R l ys → ∀ x ∈ l, ∃ y, R x y := by
  intro l ys h
  induction h with
  | nil =>
      intro x hx
      simp at hx
  | cons hab _ ih =>
      intro x hx
      rcases List.mem_cons.mp hx with rfl | hx'
      · exact ⟨_, hab⟩
      · exact ih x hx'

theorem forall₂_imp_mem {α β : Type} {R S : α → β → Prop} :
    ∀ {l : List α} {ys : List β}, List.Forall₂ R l ys →
      (∀ x ∈ l, ∀ y, R x y → S x y) → List.Forall₂ S l ys := by
  intro l ys h
  induction h with
  | nil => exact fun _ => List.Forall₂.nil
  | @cons a b l' ys' hab _ ih =>
      intro himp
      exact List.Forall₂.cons (himp a (by simp) b hab)
        (ih fun x hx y hxy => himp x (by simp [hx]) y hxy)

theorem forall₂_getElem? {α β : Type} {R : α → β → Prop} :
    ∀ {l : List α} {ys : List β}, List.Forall₂ R l ys → ∀ k : Nat,
      (l[k]? = none ∧ ys[k]? = none) ∨
      ∃ x y, l[k]? = some x ∧ ys[k]? = some y ∧ R x y := by
  intro l ys h
  induction h with
  | nil =>
      intro k
      left
      simp
  | @cons a b l' ys' hab _ ih =>
      intro k
      match k with
      | 0 => exact Or.inr ⟨a, b, by simp, by simp, hab⟩
      | k + 1 => simpa using ih k

theorem flatten_length_eq {α β : Type} :
    ∀ {as : List (List α)} {bs : List (List β)},
      List.Forall₂ (fun (a : List α) (b : List β) => a.length = b.length) as bs →
      as.flatten.length = bs.flatten.length := by
  intro as bs h
  induction h with
  | nil => rfl
  | cons hab _ ih => simp [List.flatten_cons, hab, ih]

/-! ## Claim theorems -/

/-- C7: the effective consistency level of every wire request is the
explicit per-call override when given, else the connection's configured
default when set, and when neither is set the commitment parameter is
omitted from the wire request entirely. -/
theorem commitment_resolution :
    (∀ (conn : Connection) (pks : List PublicKey) (c : Commitment),
      coreArgs conn pks (some c) =
        [RpcArg.keys (pks.map PublicKey.toBase58), RpcArg.config c]) ∧
    (∀ (conn : Connection) (pks : List PublicKey) (c : Commitment),
      conn.commitment = some c →
      coreArgs conn pks none =
        [RpcArg.keys (pks.map PublicKey.toBase58), RpcArg.config c]) ∧
    (∀ (conn : Connection) (pks : List PublicKey),
      conn.commitment = none →
      coreArgs conn pks none = [RpcArg.keys (pks.map PublicKey.toBase58)]) := by
  refine ⟨fun conn pks c => rfl, fun conn pks c hc => ?_, fun conn pks hc => ?_⟩
  · simp [coreArgs, Option.orElse, hc]
  · simp [coreArgs, Option.orElse, hc]

/-- C8: every per-chunk wire request uses method `"getMultipleAccounts"`
with positional params: first the base-58 strings of that chunk's keys,
then an optional trailing commitment object present exactly when an
effective consistency level was resolved. -/
theorem wire_request_shape (conn : Connection) (pks : List PublicKey)
    (ov : Option Commitment) (req : String × List RpcArg)
    (hreq : req ∈ fetchRequests conn pks ov) :
    req.1 = "getMultipleAccounts" ∧
    ∃ b ∈ fetchBatches pks,
      req.2 = RpcArg.keys (b.map PublicKey.toBase58) ::
        (match ov.orElse fun _ => conn.commitment with
         | some c => [RpcArg.config c]
         | none => ([] : List RpcArg)) := by
  unfold fetchRequests at hreq
  obtain ⟨b, hb, rfl⟩ := List.mem_map.mp hreq
  refine ⟨rfl, b, hb, ?_⟩
  cases h : ov.orElse fun _ => conn.commitment with
  | some c => simp [coreArgs, h]
  | none => simp [coreArgs, h]

/-- Witness for C8 at one concrete key with no commitment anywhere. -/
theorem wire_request_shape_witness :
    (("getMultipleAccounts", [RpcArg.keys ["KA"]]) : String × List RpcArg) ∈
      fetchRequests demoConn [kDemoA] none ∧
    ((("getMultipleAccounts", [RpcArg.keys ["KA"]]) : String × List RpcArg).1 =
      "getMultipleAccounts" ∧
    ∃ b ∈ fetchBatches [kDemoA],
      (("getMultipleAccounts", [RpcArg.keys ["KA"]]) : String × List RpcArg).2 =
        RpcArg.keys (b.map PublicKey.toBase58) ::
          (match (none : Option Commitment).orElse fun _ => demoConn.commitment with
           | some c => [RpcArg.config c]
           | none => ([] : List RpcArg))) :=
  ⟨by decide, wire_request_shape demoConn [kDemoA] none _ (by decide)⟩

/-- C9: the `throw Error("Invalid response")` branch is unreachable — for
every entry, `decodeEntry` either succeeds (null entry, or a well-tagged
entry decoded to a non-null value) or fails at the base64 tag assertion,
never with `"Invalid response"`. -/
theorem invalid_response_unreachable :
    ∀ (rv : List (Option RawAccount)) (entry : Option RawAccount),
      decodeEntry rv entry ≠ Except.error "Invalid response" ∧
      ((∃ v, decodeEntry rv entry = Except.ok v) ∨
        decodeEntry rv entry = Except.error base64AssertionMessage) := by
  intro rv entry
  cases entry with
  | none =>
      exact ⟨by rw [decodeEntry_none]; simp,
        Or.inl ⟨none, decodeEntry_none rv⟩⟩
  | some acc =>
      by_cases htag : acc.data.2 = "base64"
      · refine ⟨?_, Or.inl ⟨_, decodeEntry_some_ok rv htag⟩⟩
        rw [decodeEntry_some_ok rv htag]
        simp
      · refine ⟨?_, Or.inr (decodeEntry_some_err rv htag)⟩
        rw [decodeEntry_some_err rv htag]
        decide

/-- C10: every list of at most 99 keys — the empty list included — takes
the unchunked fast path: exactly one wire request, the fetch being one core
call on the whole list. -/
theorem unchunked_fast_path (conn : Connection) (pks : List PublicKey)
    (ov : Option Commitment) (h : pks.length ≤ 99) :
    fetchRequests conn pks ov = [("getMultipleAccounts", coreArgs conn pks ov)] ∧
    getMultipleAccounts conn pks ov = getMultipleAccountsCore conn pks ov := by
  have h' : pks.length ≤ GET_MULTIPLE_ACCOUNTS_LIMIT := h
  constructor
  · simp [fetchRequests, fetchBatches, if_pos h']
  · simp [getMultipleAccounts, if_pos h']

/-- Witness for C10: the empty list still causes one remote call carrying
an empty identifier array. -/
theorem unchunked_fast_path_witness :
    fetchRequests demoConn ([] : List PublicKey) none =
      [("getMultipleAccounts", [RpcArg.keys []])] ∧
    getMultipleAccounts demoConn [] none = getMultipleAccountsCore demoConn [] none :=
  unchunked_fast_path demoConn [] none (by decide)

/-- Counterexample for C5 as stated: for the empty identifier list the
fetch issues 1 wire request (the unchunked fast path), not
`ceil(0 / 99) = 0`. -/
theorem fetch_chunking_cex :
    (fetchRequests demoConn ([] : List PublicKey) none).length ≠
      (([] : List PublicKey).length + 98) / 99 := by
  decide

/-- C5 (amended): for every NONEMPTY identifier list of length L the fetch
issues `ceil(L/99) = (L + 98) / 99` remote requests, each carrying at most
99 identifiers, the batches concatenating in order to the input; the empty
list instead issues one request with an empty identifier array (see the
fast-path theorem). -/
theorem fetch_chunking (conn : Connection) (pks : List PublicKey)
    (ov : Option Commitment) (h : pks ≠ []) :
    (fetchRequests conn pks ov).length = (pks.length + 98) / 99 ∧
    (∀ b ∈ fetchBatches pks, b.length ≤ 99) ∧
    (fetchBatches pks).flatten = pks := by
  refine ⟨?_, fun b hb => fetchBatches_size b hb, fetchBatches_flatten pks⟩
  unfold fetchRequests
  rw [List.length_map]
  unfold fetchBatches
  by_cases hle : pks.length ≤ GET_MULTIPLE_ACCOUNTS_LIMIT
  · rw [if_pos hle]
    have h1 : 0 < pks.length := List.length_pos.mpr h
    unfold GET_MULTIPLE_ACCOUNTS_LIMIT at hle
    simp only [List.length_cons, List.length_nil]
    omega
  · rw [if_neg hle]
    exact chunks_length_99 pks

/-- Witness for C5 at 150 keys: 2 requests, batch sizes 99 and 51. -/
theorem fetch_chunking_witness :
    pks150 ≠ [] ∧
    ((fetchRequests demoConn pks150 none).length = (pks150.length + 98) / 99 ∧
      (∀ b ∈ fetchBatches pks150, b.length ≤ 99) ∧
      (fetchBatches pks150).flatten = pks150) ∧
    (fetchBatches pks150).map List.length = [99, 51] := by
  have hne : pks150 ≠ [] := by simp [pks150]
  refine ⟨hne, fetch_chunking demoConn pks150 none hne, ?_⟩
  have h1 : fetchBatches pks150 =
      [List.replicate 99 (⟨"K"⟩ : PublicKey), List.replicate 51 ⟨"K"⟩] := by
    unfold fetchBatches pks150
    rw [if_neg (by simp [GET_MULTIPLE_ACCOUNTS_LIMIT])]
    show chunks (List.replicate 150 (⟨"K"⟩ : PublicKey)) 99 = _
    rw [chunks_cons (by simp) (by omega)]
    rw [List.take_replicate, List.drop_replicate]
    norm_num
    rw [chunks_cons (by simp) (by omega)]
    rw [List.take_replicate, List.drop_replicate]
    norm_num
    exact chunks_nil 99
  rw [h1]
  simp

/-- C2: when the remote answers some chunk's call with a structured error
object (all earlier chunks succeeding), the whole fetch fails with an error
whose message contains both the remote's message text and the comma-joined
base-58 identifiers of the failing chunk, and no partial result list is
returned. -/
theorem fetch_fails_on_chunk_error (conn : Connection) (pks : List PublicKey)
    (ov : Option Commitment) (j : Nat) (b : List PublicKey) (e : RpcError)
    (hb : (fetchBatches pks)[j]? = some b)
    (herr : (coreResponse conn b ov).error = some e)
    (hpre : ∀ i b', i < j → (fetchBatches pks)[i]? = some b' →
      ∃ l, getMultipleAccountsCore conn b' ov = Except.ok l) :
    getMultipleAccounts conn pks ov = Except.error (coreErrorMessage b e) ∧
    (∀ l, getMultipleAccounts conn pks ov ≠ Except.ok l) ∧
    (∃ p q : String, coreErrorMessage b e = p ++ e.message ++ q) ∧
    (∃ p q : String, coreErrorMessage b e =
      p ++ String.intercalate ", " (b.map PublicKey.toBase58) ++ q) := by
  have hmap : (fetchBatches pks).mapM
      (fun bb => getMultipleAccountsCore conn bb ov) =
      Except.error (coreErrorMessage b e) :=
    exceptMapM_error _ (fetchBatches pks) j b _ hb (core_error herr)
      fun i y hi hy => hpre i y hi hy
  have hfetch : getMultipleAccounts conn pks ov =
      Except.error (coreErrorMessage b e) := by
    rw [getMultipleAccounts_link, hmap]
    rfl
  refine ⟨hfetch, fun l hl => ?_, ?_, ?_⟩
  · rw [hfetch] at hl
    exact Except.noConfusion hl
  · refine ⟨"failed to get info about accounts " ++
      String.intercalate ", " (b.map PublicKey.toBase58) ++ ": ", "", ?_⟩
    simp [coreErrorMessage, String.append_assoc]
  · refine ⟨"failed to get info about accounts ",
      ": " ++ e.message, ?_⟩
    simp [coreErrorMessage, String.append_assoc]

/-- Witness for C2: a transport reporting `"boom"` on the one chunk of a
single-key fetch. -/
theorem fetch_fails_on_chunk_error_witness :
    getMultipleAccounts errConn [kDemoA] none =
      Except.error (coreErrorMessage [kDemoA] ⟨"boom"⟩) ∧
    (∀ l, getMultipleAccounts errConn [kDemoA] none ≠ Except.ok l) ∧
    (∃ p q : String, coreErrorMessage [kDemoA] ⟨"boom"⟩ =
      p ++ (⟨"boom"⟩ : RpcError).message ++ q) ∧
    (∃ p q : String, coreErrorMessage [kDemoA] ⟨"boom"⟩ =
      p ++ String.intercalate ", " ([kDemoA].map PublicKey.toBase58) ++ q) :=
  fetch_fails_on_chunk_error errConn [kDemoA] none 0 [kDemoA] ⟨"boom"⟩
    (by decide) (by decide)
    (fun i b' hi _ => absurd hi (Nat.not_lt_zero i))

/-- C4: decoding fails exactly when a present entry carries an encoding tag
other than `"base64"` or when the envelope lacks its result payload;
otherwise every entry decodes, and a fetch can only succeed when every
chunk's decode succeeded (a decode failure aborts the whole fetch). -/
theorem decode_failure_characterization :
    (∀ (rv : List (Option RawAccount)) (entry : Option RawAccount),
      (∃ v, decodeEntry rv entry = Except.ok v) ↔
        (entry = none ∨ ∃ acc, entry = some acc ∧ acc.data.2 = "base64")) ∧
    (∀ (conn : Connection) (pks : List PublicKey) (ov : Option Commitment),
      (coreResponse conn pks ov).error = none →
      ((∃ l, getMultipleAccountsCore conn pks ov = Except.ok l) ↔
        ∃ r, (coreResponse conn pks ov).result = some r ∧
          ∀ entry ∈ r.value, ∀ acc, entry = some acc → acc.data.2 = "base64")) ∧
    (∀ (conn : Connection) (pks : List PublicKey) (ov : Option Commitment)
      (l : List (Option ProgramAccount)),
      getMultipleAccounts conn pks ov = Except.ok l →
      ∀ b ∈ fetchBatches pks, ∃ l', getMultipleAccountsCore conn b ov = Except.ok l') := by
  refine ⟨fun rv entry => ?_, fun conn pks ov he => ?_, fun conn pks ov l hl b hb => ?_⟩
  · constructor
    · rintro ⟨v, hv⟩
      rcases decodeEntry_ok_shape hv with ⟨hnone, _⟩ | ⟨acc, heq, htag, _⟩
      · exact Or.inl hnone
      · exact Or.inr ⟨acc, heq, htag⟩
    · rintro (rfl | ⟨acc, rfl, htag⟩)
      · exact ⟨none, decodeEntry_none rv⟩
      · exact ⟨_, decodeEntry_some_ok rv htag⟩
  · constructor
    · rintro ⟨l, hl⟩
      obtain ⟨_, r, accs, hr, hm, _⟩ := core_ok_inv hl
      refine ⟨r, hr, fun entry hentry acc hacc => ?_⟩
      obtain ⟨v, hv⟩ :=
        forall₂_exists_of_mem (exceptMapM_ok_forall₂ _ _ _ hm) entry hentry
      rcases decodeEntry_ok_shape hv with ⟨hnone, _⟩ | ⟨acc', heq, htag, _⟩
      · rw [hacc] at hnone
        exact Option.noConfusion hnone
      · rw [hacc] at heq
        injection heq with h'
        rw [h']
        exact htag
    · rintro ⟨r, hr, hall⟩
      have hdec : ∀ entry ∈ r.value, ∃ v, decodeEntry r.value entry = Except.ok v := by
        intro entry hentry
        cases entry with
        | none => exact ⟨none, decodeEntry_none _⟩
        | some acc => exact ⟨_, decodeEntry_some_ok _ (hall _ hentry acc rfl)⟩
      obtain ⟨accs, hm⟩ := exceptMapM_ok_of_all _ _ hdec
      exact ⟨_, core_ok_of he hr hm⟩
  · rw [getMultipleAccounts_link] at hl
    cases hm : (fetchBatches pks).mapM
        (fun bb => getMultipleAccountsCore conn bb ov) with
    | error e =>
        rw [hm] at hl
        simp [Except.map] at hl
    | ok outs =>
        exact forall₂_exists_of_mem (exceptMapM_ok_forall₂ _ _ _ hm) b hb

/-- C6: a successfully decoded non-null entry passes `executable` and
`lamports` through verbatim, parses the owner string into a key, and sets
`data` to the base64-decoding of the encoded payload — and base64-decoding
inverts base64-encoding on every byte sequence. -/
theorem decoded_fields_and_roundtrip (rv : List (Option RawAccount))
    (acc : RawAccount) (htag : acc.data.2 = "base64") (bs : List Nat)
    (hbs : ∀ x ∈ bs, x < 256) :
    decodeEntry rv (some acc) = Except.ok (some
      { executable := acc.executable, owner := PublicKey.mk acc.owner,
        lamports := acc.lamports, data := base64Decode acc.data.1 }) ∧
    base64Decode (base64Encode bs) = bs :=
  ⟨decodeEntry_some_ok rv htag, base64_roundtrip bs hbs⟩

/-- Witness for C6 at `demoRaw` and the byte list `[104, 105]`. -/
theorem decoded_fields_and_roundtrip_witness :
    decodeEntry [] (some demoRaw) = Except.ok (some
      { executable := demoRaw.executable, owner := PublicKey.mk demoRaw.owner,
        lamports := demoRaw.lamports, data := base64Decode demoRaw.data.1 }) ∧
    base64Decode (base64Encode [104, 105]) = [104, 105] :=
  decoded_fields_and_roundtrip [] demoRaw rfl [104, 105] (by decide)

/-- Counterexample for C3 as stated: a remote answering one entry for a
two-key request makes the fetch SUCCEED with a one-element result — no
internal consistency error is raised on a count mismatch. -/
theorem missing_consistency_check_cex :
    getMultipleAccounts shortConn [kDemoA, kDemoB] none = Except.ok [none] ∧
    (fetchRawValues shortConn [kDemoA, kDemoB] none).length = 1 ∧
    ([kDemoA, kDemoB] : List PublicKey).length = 2 := by
  decide

/-- C3 (amended): the code performs no defensive count check; whenever the
fetch succeeds its result's length equals the total number of decoded
entries flattened across the chunk responses, whether or not that matches
the number of input identifiers. -/
theorem fetch_length_eq_flattened (conn : Connection) (pks : List PublicKey)
    (ov : Option Commitment) (out : List (Option ProgramAccount))
    (hok : getMultipleAccounts conn pks ov = Except.ok out) :
    out.length = (fetchRawValues conn pks ov).length := by
  rw [getMultipleAccounts_link] at hok
  cases hm : (fetchBatches pks).mapM
      (fun bb => getMultipleAccountsCore conn bb ov) with
  | error e =>
      rw [hm] at hok
      simp [Except.map] at hok
  | ok outs =>
      rw [hm] at hok
      simp only [Except.map] at hok
      cases hok
      have hf := exceptMapM_ok_forall₂ _ _ _ hm
      unfold fetchRawValues
      refine (flatten_length_eq ?_).symm
      rw [List.forall₂_map_left_iff]
      refine List.Forall₂.imp ?_ hf
      intro b o hbo
      obtain ⟨_, r, accs, hr, hm2, ho⟩ := core_ok_inv hbo
      rw [hr, ho, length_pairResults,
        (exceptMapM_ok_forall₂ _ _ _ hm2).length_eq]

/-- Witness for C3's amended theorem at the mismatching transport. -/
theorem fetch_length_eq_flattened_witness :
    getMultipleAccounts shortConn [kDemoA, kDemoB] none = Except.ok [none] ∧
    ([none] : List (Option ProgramAccount)).length =
      (fetchRawValues shortConn [kDemoA, kDemoB] none).length :=
  ⟨by decide,
    fetch_length_eq_flattened shortConn [kDemoA, kDemoB] none [none] (by decide)⟩

/-- Pointwise description of one successful core call whose response has one
entry per requested key: lengths agree, slot `k` is null exactly when there
is no key `k` in range, every present slot embeds `b[k]?`, the raw entry
list has the result's length, and raw nulls sit exactly at null slots. -/
theorem core_batch_pointwise {conn : Connection} {ov : Option Commitment}
    {b : List PublicKey} {o : List (Option ProgramAccount)}
    (hbo : getMultipleAccountsCore conn b ov = Except.ok o)
    (hlen : ∀ r : RpcResult, (coreResponse conn b ov).result = some r →
      r.value.length = b.length) :
    b.length = o.length ∧
    (∀ k : Nat,
      (b[k]? = none ↔ o[k]? = none) ∧
      ∀ slot, o[k]? = some slot →
        slot = none ∨ ∃ a, slot = some ⟨b[k]?, a⟩) ∧
    ((match (coreResponse conn b ov).result with
        | some r => r.value
        | none => ([] : List (Option RawAccount))).length = o.length ∧
      ∀ k : Nat, ((match (coreResponse conn b ov).result with
        | some r => r.value
        | none => ([] : List (Option RawAccount)))[k]? = some none ↔
        o[k]? = some none)) := by
  obtain ⟨he, r, accs, hr, hm, ho⟩ := core_ok_inv hbo
  have hlen_r : r.value.length = b.length := hlen r hr
  have hf := exceptMapM_ok_forall₂ _ _ _ hm
  have hlen_accs : r.value.length = accs.length := hf.length_eq
  subst ho
  have hblen : b.length = accs.length := by omega
  refine ⟨?_, fun k => ⟨?_, ?_⟩, ?_, fun k => ?_⟩
  · rw [length_pairResults]
    omega
  · cases haccs : accs[k]? with
    | none =>
        have hka : accs.length ≤ k := List.getElem?_eq_none_iff.mp haccs
        have hb1 : b[k]? = none := List.getElem?_eq_none_iff.mpr (by omega)
        rw [hb1, getElem?_pairResults, haccs]
        simp
    | some av =>
        have hka : k < accs.length := by
          by_contra hcon
          rw [List.getElem?_eq_none_iff.mpr (by omega)] at haccs
          exact Option.noConfusion haccs
        have hb1 : b[k]? ≠ none := by
          intro hcon
          rw [List.getElem?_eq_none_iff] at hcon
          omega
        rw [getElem?_pairResults, haccs]
        cases av <;> simp [hb1]
  · intro slot hslot
    rw [getElem?_pairResults] at hslot
    cases haccs : accs[k]? with
    | none =>
        rw [haccs] at hslot
        exact Option.noConfusion hslot
    | some av =>
        rw [haccs] at hslot
        cases av with
        | none =>
            injection hslot with h'
            exact Or.inl h'.symm
        | some acc =>
            injection hslot with h'
            exact Or.inr ⟨acc, h'.symm⟩
  · simp only [hr, length_pairResults]
    omega
  · simp only [hr]
    rcases forall₂_getElem? hf k with ⟨hx, hy⟩ | ⟨x, y, hx, hy, hxy⟩
    · rw [hx, getElem?_pairResults, hy]
      simp
    · rw [hx, getElem?_pairResults, hy]
      rcases decodeEntry_ok_shape hxy with ⟨rfl, rfl⟩ | ⟨acc, rfl, _, rfl⟩
      · simp
      · simp

/-- C1: for every successful fetch against a remote that answers each chunk
with one entry per requested key, the result has exactly one slot per input
identifier, slot `i` is either null or pairs the identifier at input
position `i` (regardless of chunking), and the flattened raw entry at
position `i` is null exactly when slot `i` is null. -/
theorem fetch_preserves_positions (conn : Connection) (pks : List PublicKey)
    (ov : Option Commitment) (out : List (Option ProgramAccount))
    (hok : getMultipleAccounts conn pks ov = Except.ok out)
    (hlen : ∀ b ∈ fetchBatches pks, ∀ r : RpcResult,
      (coreResponse conn b ov).result = some r → r.value.length = b.length) :
    out.length = pks.length ∧
    (∀ i : Nat, i < pks.length →
      out[i]? = some none ∨
      ∃ k a, pks[i]? = some k ∧ out[i]? = some (some ⟨some k, a⟩)) ∧
    (∀ i : Nat, (fetchRawValues conn pks ov)[i]? = some none ↔
      out[i]? = some none) := by
  rw [getMultipleAccounts_link] at hok
  cases hm : (fetchBatches pks).mapM
      (fun bb => getMultipleAccountsCore conn bb ov) with
  | error e =>
      rw [hm] at hok
      simp [Except.map] at hok
  | ok outs =>
      rw [hm] at hok
      simp only [Except.map] at hok
      cases hok
      have hf := exceptMapM_ok_forall₂ _ _ _ hm
      have hstrong := forall₂_imp_mem hf
        fun b hb o hbo => core_batch_pointwise hbo (hlen b hb)
      have hforall1 : List.Forall₂
          (fun (b : List PublicKey) (o : List (Option ProgramAccount)) =>
            b.length = o.length ∧ ∀ k : Nat,
              (b[k]? = none ↔ o[k]? = none) ∧
              ∀ slot, o[k]? = some slot →
                slot = none ∨ ∃ a, slot = some (ProgramAccount.mk b[k]? a))
          (fetchBatches pks) outs :=
        List.Forall₂.imp (fun b o hS => ⟨hS.1, fun k => hS.2.1 k⟩) hstrong
      have h1 := flatten_rel
        (fun (ko : Option PublicKey) (so : Option (Option ProgramAccount)) =>
          (ko = none ↔ so = none) ∧
          ∀ slot, so = some slot →
            slot = none ∨ ∃ a, slot = some (ProgramAccount.mk ko a))
        ⟨iff_of_true rfl rfl, fun _ hc => Option.noConfusion hc⟩ hforall1
      rw [fetchBatches_flatten] at h1
      have hlen_out : outs.flatten.length = pks.length :=
        (length_eq_of_none_iff fun i => (h1 i).1).symm
      refine ⟨hlen_out, fun i hi => ?_, ?_⟩
      · obtain ⟨k, hk⟩ : ∃ k, pks[i]? = some k := by
          cases hp : pks[i]? with
          | none =>
              rw [List.getElem?_eq_none_iff] at hp
              omega
          | some k => exact ⟨k, rfl⟩
        obtain ⟨hiff, hslot⟩ := h1 i
        cases hout : outs.flatten[i]? with
        | none =>
            have hcon := hiff.mpr hout
            rw [hcon] at hk
            exact Option.noConfusion hk
        | some slot =>
            rcases hslot slot hout with rfl | ⟨a, rfl⟩
            · exact Or.inl rfl
            · refine Or.inr ⟨k, a, hk, ?_⟩
              rw [hk]
      · have hforall2 : List.Forall₂
            (fun (v : List (Option RawAccount)) (o : List (Option ProgramAccount)) =>
              v.length = o.length ∧
              ∀ k : Nat, (v[k]? = some none ↔ o[k]? = some none))
            ((fetchBatches pks).map fun batch =>
              match (coreResponse conn batch ov).result with
              | some r => r.value
              | none => ([] : List (Option RawAccount))) outs := by
          rw [List.forall₂_map_left_iff]
          exact List.Forall₂.imp
            (fun b o hS => ⟨hS.2.2.1, fun k => hS.2.2.2 k⟩) hstrong
        have h2 := flatten_rel
          (fun (ro : Option (Option RawAccount)) (so : Option (Option ProgramAccount)) =>
            ro = some none ↔ so = some none)
          (iff_of_false (by simp) (by simp)) hforall2
        intro i
        exact h2 i

/-- Witness for C1: two keys, the remote answering a well-shaped two-entry
value with a null in second position. -/
theorem fetch_preserves_positions_witness :
    demoOut.length = ([kDemoA, kDemoB] : List PublicKey).length ∧
    (∀ i : Nat, i < ([kDemoA, kDemoB] : List PublicKey).length →
      demoOut[i]? = some none ∨
      ∃ k a, ([kDemoA, kDemoB] : List PublicKey)[i]? = some k ∧
        demoOut[i]? = some (some ⟨some k, a⟩)) ∧
    (∀ i : Nat, (fetchRawValues demoOkConn [kDemoA, kDemoB] none)[i]? = some none ↔
      demoOut[i]? = some none) :=
  fetch_preserves_positions demoOkConn [kDemoA, kDemoB] none demoOut
    (by decide)
    (by
      intro b hb r hr
      have hb' : b = [kDemoA, kDemoB] := by
        simpa [fetchBatches, GET_MULTIPLE_ACCOUNTS_LIMIT] using hb
      subst hb'
      have he : (coreResponse demoOkConn [kDemoA, kDemoB] none).result =
          some ⟨[some demoRaw, none]⟩ := by decide
      rw [he] at hr
      injection hr with h'
      rw [← h']
      decide)

end AnchorRpc
